import Mathlib

/-!
Verification development for the wheel-strategy backtest engine of the
tushare-mcp repository.  The embedded code lives in
`src/strategies/wheel_backtest.py` and `src/utils/option_math.py`:

* `erf`, `norm_cdf`, `black_scholes_price`, `bisect_iv`,
  `estimate_implied_vol` model `src/utils/option_math.py` over the reals
  (the Python floats are idealized as real numbers; `math.erf` is the
  genuine error function, written here as its standard integral form).
* `scan_forward`, `scan_backward`, `nearest_trade_day`,
  `price_on_or_before` model the calendar helpers defined inside
  `run_wheel_backtest`.
* `OptionContract`, `live_filter`, `otm_of`, `pick_min`, `pick_option`
  model the option-catalog rows and the `pick_option` selector.
* `WheelState`, `assign_step`, `month_step`, `runFrom`, `run_wheel`
  model the monthly simulation loop of `run_wheel_backtest`, with the
  external data feeds (`price_map`, `opt_daily`, the trading calendar)
  supplied as function-valued inputs, exactly the role they play for the
  loop.  Exact rational arithmetic stands in for Python floats.
-/

namespace WheelSpec

/-- Option side, the `call_put` / `option_type` flag `"P"` or `"C"` of the
Python source. -/
inductive Side where
  | P : Side
  | C : Side
deriving DecidableEq, Repr

/-! ## Model of `src/utils/option_math.py` over ℝ -/

noncomputable section
open Classical

/-- Model of `math.erf`: the Gauss error function in its standard integral
form. -/
def erf (x : ℝ) : ℝ :=
  (2 / Real.sqrt Real.pi) * ∫ t in (0:ℝ)..x, Real.exp (-(t ^ 2))

/-- Model of `norm_cdf` (`option_math.py` line 8). -/
def norm_cdf (x : ℝ) : ℝ :=
  0.5 * (1.0 + erf (x / Real.sqrt 2.0))

/-- The intrinsic value computed in the degenerate branch of
`black_scholes_price` (`option_math.py` line 21). -/
def intrinsic (option_type : Side) (spot strike : ℝ) : ℝ :=
  max 0.0 (match option_type with
    | Side.P => strike - spot
    | Side.C => spot - strike)

/-- Model of `black_scholes_price` (`option_math.py` lines 12-28). -/
def black_scholes_price (spot strike time_years rate sigma : ℝ)
    (option_type : Side) : ℝ :=
  if time_years ≤ 0 ∨ sigma ≤ 0 ∨ spot ≤ 0 ∨ strike ≤ 0 then
    intrinsic option_type spot strike
  else
    let vol_term := sigma * Real.sqrt time_years
    let d1 := (Real.log (spot / strike) + (rate + 0.5 * sigma ^ 2) * time_years) / vol_term
    let d2 := d1 - vol_term
    match option_type with
    | Side.P => strike * Real.exp (-rate * time_years) * norm_cdf (-d2) - spot * norm_cdf (-d1)
    | Side.C => spot * norm_cdf d1 - strike * Real.exp (-rate * time_years) * norm_cdf d2

/-- Model of the bisection loop of `estimate_implied_vol`
(`option_math.py` lines 47-56): `f` is the pricing function of the fixed
contract, the fuel argument is the remaining iteration count, and the
fuel-exhausted case returns the final midpoint exactly as the Python
`return 0.5 * (low + high)` after the `for` loop. -/
def bisect_iv (f : ℝ → ℝ) (premium : ℝ) : ℕ → ℝ → ℝ → ℝ
  | 0, low, high => 0.5 * (low + high)
  | n + 1, low, high =>
    let mid := 0.5 * (low + high)
    if |f mid - premium| < 1e-4 then mid
    else if f mid > premium then bisect_iv f premium n low mid
    else bisect_iv f premium n mid high

/-- Model of `estimate_implied_vol` (`option_math.py` lines 31-56); the
Python defaults are `rate = 0.02`, `iterations = 60`. -/
def estimate_implied_vol (premium spot strike time_years : ℝ)
    (option_type : Side) (rate : ℝ) (iterations : ℕ) : Option ℝ :=
  if premium ≤ 0 ∨ time_years ≤ 0 ∨ spot ≤ 0 ∨ strike ≤ 0 then none
  else
    let low : ℝ := 1e-4
    let high : ℝ := 5.0
    let price_low := black_scholes_price spot strike time_years rate low option_type
    let price_high := black_scholes_price spot strike time_years rate high option_type
    if premium < price_low ∨ premium > price_high then none
    else some (bisect_iv
      (fun sigma => black_scholes_price spot strike time_years rate sigma option_type)
      premium iterations low high)

end

/-- Claim C6: whenever time to expiry is zero, or spot, strike or
volatility is non-positive, `black_scholes_price` returns the intrinsic
value (`max 0 (strike - spot)` for a put, `max 0 (spot - strike)` for a
call) through the guarded branch, and on the complementary branch every
argument of `log`, `sqrt` and the division is inside its domain: the log
argument `spot / strike` is positive, the sqrt argument `time_years` is
positive, and the divisor `sigma * sqrt time_years` is nonzero. -/
theorem black_scholes_degenerate_guard (spot strike time_years rate sigma : ℝ) :
    ((time_years = 0 ∨ spot ≤ 0 ∨ strike ≤ 0 ∨ sigma ≤ 0) →
      black_scholes_price spot strike time_years rate sigma Side.P = max 0 (strike - spot) ∧
      black_scholes_price spot strike time_years rate sigma Side.C = max 0 (spot - strike)) ∧
    (¬ (time_years ≤ 0 ∨ sigma ≤ 0 ∨ spot ≤ 0 ∨ strike ≤ 0) →
      0 < spot / strike ∧ 0 < time_years ∧ sigma * Real.sqrt time_years ≠ 0) := by
  constructor
  · intro h
    have hguard : time_years ≤ 0 ∨ sigma ≤ 0 ∨ spot ≤ 0 ∨ strike ≤ 0 := by
      rcases h with h | h | h | h
      · exact Or.inl (le_of_eq h)
      · exact Or.inr (Or.inr (Or.inl h))
      · exact Or.inr (Or.inr (Or.inr h))
      · exact Or.inr (Or.inl h)
    constructor
    · rw [black_scholes_price, if_pos hguard]
      norm_num [intrinsic]
    · rw [black_scholes_price, if_pos hguard]
      norm_num [intrinsic]
  · intro h
    push_neg at h
    obtain ⟨ht, hs, hsp, hst⟩ := h
    refine ⟨div_pos hsp hst, ht, ?_⟩
    exact ne_of_gt (mul_pos hs (Real.sqrt_pos.mpr ht))

/-- Witness for the claim C6 theorem at concrete inputs: time to expiry 0,
spot 1, strike 2 for a put gives the intrinsic value `max 0 (2 - 1)`. -/
theorem black_scholes_degenerate_guard_witness :
    ((0:ℝ) = 0 ∨ (1:ℝ) ≤ 0 ∨ (2:ℝ) ≤ 0 ∨ (1:ℝ) ≤ 0) ∧
      black_scholes_price 1 2 0 0.02 1 Side.P = max 0 (2 - 1) :=
  ⟨Or.inl rfl,
    ((black_scholes_degenerate_guard 1 2 0 0.02 1).1 (Or.inl rfl)).1⟩

/-- Claim C5: `estimate_implied_vol` returns `none` exactly when one of
premium, spot, strike, time-to-expiry is not strictly positive, or the
premium falls strictly outside the closed interval between the model
prices at the bracket volatilities `1e-4` and `5.0`; in every other case
it returns a value. -/
theorem estimate_implied_vol_none_iff (premium spot strike time_years rate : ℝ)
    (option_type : Side) (iterations : ℕ) :
    estimate_implied_vol premium spot strike time_years option_type rate iterations = none ↔
      ((premium ≤ 0 ∨ time_years ≤ 0 ∨ spot ≤ 0 ∨ strike ≤ 0) ∨
        premium < black_scholes_price spot strike time_years rate 1e-4 option_type ∨
        premium > black_scholes_price spot strike time_years rate 5.0 option_type) := by
  rw [estimate_implied_vol]
  by_cases h1 : premium ≤ 0 ∨ time_years ≤ 0 ∨ spot ≤ 0 ∨ strike ≤ 0
  · simp [h1]
  · rw [if_neg h1]
    by_cases h2 : premium < black_scholes_price spot strike time_years rate 1e-4 option_type ∨
        premium > black_scholes_price spot strike time_years rate 5.0 option_type
    · simp only [h2, if_pos]
      simp [h1, h2]
    · simp only [h2, if_neg, not_false_iff]
      simp [h1, h2]

/-! ## Calendar helpers of `run_wheel_backtest` (lines 132-148)

Dates are modelled as integers (a day count), so the Python
`datetime + timedelta(days=±1)` stepping becomes `± 1` on ℤ.  The sorted
trading-day list of the source is represented by its first day, its last
day and its membership test `dset` (the Python `day_set`). -/

/-- Forward day-by-day scan of `nearest_trade_day`: the loop body after
`current += delta` with `delta = +1` — leave-the-range check first, then
the membership check, then the next step. -/
def scan_forward (first last : ℤ) (dset : ℤ → Bool) (current : ℤ) : Option ℤ :=
  if current < first ∨ last < current then none
  else if dset current then some current
  else scan_forward first last dset (current + 1)
termination_by (last + 1 - current).toNat
decreasing_by
  simp only [not_or, not_lt] at *
  omega

/-- Backward day-by-day scan of `nearest_trade_day` (`delta = -1`). -/
def scan_backward (first last : ℤ) (dset : ℤ → Bool) (current : ℤ) : Option ℤ :=
  if current < first ∨ last < current then none
  else if dset current then some current
  else scan_backward first last dset (current - 1)
termination_by (current + 1 - first).toNat
decreasing_by
  simp only [not_or, not_lt] at *
  omega

/-- Model of `nearest_trade_day` (`wheel_backtest.py` lines 132-140): the
scan starts one step away from `d` in the chosen direction. -/
def nearest_trade_day (first last : ℤ) (dset : ℤ → Bool) (d : ℤ) (forward : Bool) : Option ℤ :=
  if forward then scan_forward first last dset (d + 1)
  else scan_backward first last dset (d - 1)

/-- Model of `price_on_or_before` (`wheel_backtest.py` lines 142-148):
walk backward from `d` until a date with a recorded close is found; give
up once the cursor passes below the first trading day. -/
def price_on_or_before (first : ℤ) (pmap : ℤ → Option ℚ) (d : ℤ) : Option ℚ :=
  match pmap d with
  | some p => some p
  | none => if d - 1 < first then none else price_on_or_before first pmap (d - 1)
termination_by (d + 1 - first).toNat
decreasing_by
  simp only [not_lt] at *
  omega

theorem scan_forward_some (first last : ℤ) (dset : ℤ → Bool) (current r : ℤ)
    (h : scan_forward first last dset current = some r) :
    dset r = true ∧ current ≤ r ∧ first ≤ r ∧ r ≤ last := by
  by_cases hfuel : (last + 1 - current).toNat = 0
  · rw [scan_forward] at h
    rw [if_pos (by omega)] at h
    exact absurd h (by simp)
  · rw [scan_forward] at h
    by_cases h1 : current < first ∨ last < current
    · rw [if_pos h1] at h
      exact absurd h (by simp)
    · rw [if_neg h1] at h
      by_cases h2 : dset current
      · rw [if_pos h2] at h
        have := Option.some.inj h
        subst this
        simp only [not_or, not_lt] at h1
        exact ⟨h2, le_refl _, h1.1, h1.2⟩
      · rw [if_neg h2] at h
        have ih := scan_forward_some first last dset (current + 1) r h
        exact ⟨ih.1, by omega, ih.2.2⟩
termination_by (last + 1 - current).toNat
decreasing_by
  simp only [not_or, not_lt] at *
  omega

theorem scan_forward_none_iff (first last : ℤ) (dset : ℤ → Bool) (current : ℤ)
    (hge : first ≤ current) :
    scan_forward first last dset current = none ↔
      ∀ x, current ≤ x → x ≤ last → dset x = false := by
  rw [scan_forward]
  by_cases h1 : current < first ∨ last < current
  · rw [if_pos h1]
    simp only [true_iff]
    intro x hx1 hx2
    omega
  · rw [if_neg h1]
    simp only [not_or, not_lt] at h1
    by_cases h2 : dset current
    · rw [if_pos h2]
      simp only [reduceCtorEq, false_iff, not_forall]
      exact ⟨current, le_refl _, h1.2, by simp [h2]⟩
    · rw [if_neg h2]
      rw [scan_forward_none_iff first last dset (current + 1) (by omega)]
      constructor
      · intro hall x hx1 hx2
        by_cases hc : x = current
        · subst hc
          simpa using h2
        · exact hall x (by omega) hx2
      · intro hall x hx1 hx2
        exact hall x (by omega) hx2
termination_by (last + 1 - current).toNat
decreasing_by
  simp only [not_or, not_lt] at *
  omega

theorem scan_backward_some (first last : ℤ) (dset : ℤ → Bool) (current r : ℤ)
    (h : scan_backward first last dset current = some r) :
    dset r = true ∧ r ≤ current ∧ first ≤ r ∧ r ≤ last := by
  rw [scan_backward] at h
  by_cases h1 : current < first ∨ last < current
  · rw [if_pos h1] at h
    exact absurd h (by simp)
  · rw [if_neg h1] at h
    simp only [not_or, not_lt] at h1
    by_cases h2 : dset current
    · rw [if_pos h2] at h
      have := Option.some.inj h
      subst this
      exact ⟨h2, le_refl _, h1.1, h1.2⟩
    · rw [if_neg h2] at h
      have ih := scan_backward_some first last dset (current - 1) r h
      exact ⟨ih.1, by omega, ih.2.2⟩
termination_by (current + 1 - first).toNat
decreasing_by
  simp only [not_or, not_lt] at *
  omega

theorem scan_backward_none_iff (first last : ℤ) (dset : ℤ → Bool) (current : ℤ)
    (hle : current ≤ last) :
    scan_backward first last dset current = none ↔
      ∀ x, first ≤ x → x ≤ current → dset x = false := by
  rw [scan_backward]
  by_cases h1 : current < first ∨ last < current
  · rw [if_pos h1]
    simp only [true_iff]
    intro x hx1 hx2
    omega
  · rw [if_neg h1]
    simp only [not_or, not_lt] at h1
    by_cases h2 : dset current
    · rw [if_pos h2]
      simp only [reduceCtorEq, false_iff, not_forall]
      exact ⟨current, h1.1, le_refl _, by simp [h2]⟩
    · rw [if_neg h2]
      rw [scan_backward_none_iff first last dset (current - 1) (by omega)]
      constructor
      · intro hall x hx1 hx2
        by_cases hc : x = current
        · subst hc
          simpa using h2
        · exact hall x hx1 (by omega)
      · intro hall x hx1 hx2
        exact hall x hx1 (by omega)
termination_by (current + 1 - first).toNat
decreasing_by
  simp only [not_or, not_lt] at *
  omega

theorem price_on_or_before_some (first : ℤ) (pmap : ℤ → Option ℚ) (d : ℤ) (p : ℚ)
    (h : price_on_or_before first pmap d = some p) :
    ∃ e, e ≤ d ∧ pmap e = some p ∧ ∀ x, e < x → x ≤ d → pmap x = none := by
  rw [price_on_or_before] at h
  cases hp : pmap d with
  | some q =>
    rw [hp] at h
    have := Option.some.inj h
    subst this
    exact ⟨d, le_refl _, hp, fun x hx1 hx2 => absurd (lt_of_lt_of_le hx1 hx2) (lt_irrefl _)⟩
  | none =>
    rw [hp] at h
    by_cases h1 : d - 1 < first
    · rw [if_pos h1] at h
      exact absurd h (by simp)
    · rw [if_neg h1] at h
      obtain ⟨e, he1, he2, he3⟩ := price_on_or_before_some first pmap (d - 1) p h
      refine ⟨e, by omega, he2, fun x hx1 hx2 => ?_⟩
      by_cases hc : x = d
      · subst hc
        exact hp
      · exact he3 x hx1 (by omega)
termination_by (d + 1 - first).toNat
decreasing_by
  simp only [not_lt] at *
  omega

/-- Claim C7: within the calendar's covered range, the forward direction
of `nearest_trade_day` returns either `none` or a calendar day strictly
greater than `d`, and returns `none` exactly when no calendar day lies in
`(d, last]` (the scan has left the covered range); symmetrically the
backward direction returns a calendar day strictly less than `d` and is
`none` exactly when no calendar day lies in `[first, d)`; and
`price_on_or_before` returns either `none` or the recorded close of the
latest date `≤ d` carrying a recorded price.  All three functions are
total Lean functions, so they never throw. -/
theorem calendar_queries_spec (first last : ℤ) (dset : ℤ → Bool)
    (pmap : ℤ → Option ℚ) (d : ℤ) (hd1 : first ≤ d) (hd2 : d ≤ last) :
    (∀ r, nearest_trade_day first last dset d true = some r →
      dset r = true ∧ d < r ∧ r ≤ last) ∧
    (nearest_trade_day first last dset d true = none ↔
      ∀ x, d < x → x ≤ last → dset x = false) ∧
    (∀ r, nearest_trade_day first last dset d false = some r →
      dset r = true ∧ r < d ∧ first ≤ r) ∧
    (nearest_trade_day first last dset d false = none ↔
      ∀ x, first ≤ x → x < d → dset x = false) ∧
    (∀ p, price_on_or_before first pmap d = some p →
      ∃ e, e ≤ d ∧ pmap e = some p ∧ ∀ x, e < x → x ≤ d → pmap x = none) := by
  refine ⟨?_, ?_, ?_, ?_, ?_⟩
  · intro r h
    rw [nearest_trade_day, if_pos rfl] at h
    have := scan_forward_some first last dset (d + 1) r h
    exact ⟨this.1, by omega, this.2.2.2⟩
  · rw [nearest_trade_day, if_pos rfl]
    rw [scan_forward_none_iff first last dset (d + 1) (by omega)]
    constructor
    · intro hall x hx1 hx2
      exact hall x (by omega) hx2
    · intro hall x hx1 hx2
      exact hall x (by omega) hx2
  · intro r h
    rw [nearest_trade_day, if_neg (by simp)] at h
    have := scan_backward_some first last dset (d - 1) r h
    exact ⟨this.1, by omega, this.2.2.1⟩
  · rw [nearest_trade_day, if_neg (by simp)]
    rw [scan_backward_none_iff first last dset (d - 1) (by omega)]
    constructor
    · intro hall x hx1 hx2
      exact hall x hx1 (by omega)
    · intro hall x hx1 hx2
      exact hall x hx1 (by omega)
  · intro p h
    exact price_on_or_before_some first pmap d p h

/-- Witness for the claim C7 theorem on a concrete five-day calendar
containing days 0, 2, 4, 6, 8: from day 5 the forward scan finds day 6
and the recorded close on or before day 5 is the one stored at day 4. -/
theorem calendar_queries_spec_witness :
    ((0:ℤ) ≤ 5 ∧ (5:ℤ) ≤ 8) ∧
    ((fun d : ℤ => decide (d % 2 = 0)) 6 = true ∧ (5:ℤ) < 6 ∧ (6:ℤ) ≤ 8) := by
  refine ⟨⟨by decide, by decide⟩, ?_⟩
  have h := (calendar_queries_spec 0 8 (fun d : ℤ => decide (d % 2 = 0))
    (fun d : ℤ => if d ≤ 4 then some 1 else none) 5 (by decide) (by decide)).1
  refine h 6 ?_
  rw [nearest_trade_day, if_pos rfl]
  rw [scan_forward]
  norm_num

/-! ## Option catalog and the `pick_option` selector (lines 174-193)

A catalog row keeps the cleaned `opt_basic` fields the engine reads:
`ts_code` (as a numeric identifier), `call_put`, `exercise_price`,
`per_unit`, `list_date`, `delist_date`, `maturity_date`. -/

/-- One cleaned option-catalog row. -/
structure OptionContract where
  ts_code : ℕ
  call_put : Side
  exercise_price : ℚ
  per_unit : ℚ
  list_date : ℤ
  delist_date : Option ℤ
  maturity_date : ℤ
deriving DecidableEq, Repr

/-- The liveness mask of `pick_option` (`wheel_backtest.py` lines
176-181): side matches, listed on or before the trade date, not delisted
before it, and maturity strictly after it. -/
def live_filter (d : ℤ) (option_type : Side) (c : OptionContract) : Bool :=
  decide (c.call_put = option_type) && decide (c.list_date ≤ d) &&
    (match c.delist_date with
      | none => true
      | some dd => decide (d ≤ dd)) &&
    decide (d < c.maturity_date)

/-- The out-of-the-money distance (`wheel_backtest.py` lines 185-188):
`(spot - strike) / spot` for puts, `(strike - spot) / spot` for calls. -/
def otm_of (spot : ℚ) (option_type : Side) (c : OptionContract) : ℚ :=
  match option_type with
  | Side.P => (spot - c.exercise_price) / spot
  | Side.C => (c.exercise_price - spot) / spot

/-- Strict lexicographic comparison on the sort key
`(maturity_date, otm)` used by the `sort_values` call at line 192. -/
def key_lt (a b : OptionContract × ℚ) : Prop :=
  a.1.maturity_date < b.1.maturity_date ∨
    (a.1.maturity_date = b.1.maturity_date ∧ a.2 < b.2)

instance : DecidablePred fun p : (OptionContract × ℚ) × OptionContract × ℚ => key_lt p.1 p.2 :=
  fun p => by unfold key_lt; infer_instance

instance (a b : OptionContract × ℚ) : Decidable (key_lt a b) := by
  unfold key_lt; infer_instance

/-- Non-strict lexicographic order on the sort key. -/
def key_le (a b : OptionContract × ℚ) : Prop :=
  a.1.maturity_date < b.1.maturity_date ∨
    (a.1.maturity_date = b.1.maturity_date ∧ a.2 ≤ b.2)

/-- Selection of the first row of the pool sorted ascending by
`(maturity_date, otm)`: a left fold keeping the running minimum, which
models `pool.sort_values(["maturity_date", "otm"]).iloc[0]`. -/
def pick_min (best : OptionContract × ℚ) : List (OptionContract × ℚ) → OptionContract × ℚ
  | [] => best
  | c :: rest => pick_min (if key_lt c best then c else best) rest

/-- The moneyness-band filter applied to the pool rows carrying their
`otm` column (`wheel_backtest.py` line 189). -/
def band_filter (otm_min otm_max : ℚ) (p : OptionContract × ℚ) : Bool :=
  decide (otm_min ≤ p.2) && decide (p.2 ≤ otm_max)

/-- The filtered pool of `pick_option`: the liveness mask, the attached
`otm` column, and the moneyness band (`wheel_backtest.py` lines
176-189). -/
def candidate_pool (catalog : List OptionContract) (otm_min otm_max : ℚ)
    (d : ℤ) (spot : ℚ) (option_type : Side) : List (OptionContract × ℚ) :=
  ((catalog.filter (live_filter d option_type)).map
    (fun c => (c, otm_of spot option_type c))).filter (band_filter otm_min otm_max)

/-- Model of `pick_option` (`wheel_backtest.py` lines 174-193): apply the
liveness mask, attach the `otm` column, keep the rows inside the
moneyness band, and return the minimum of the `(maturity_date, otm)`
sort, or `none` when the pool is empty. -/
def pick_option (catalog : List OptionContract) (otm_min otm_max : ℚ)
    (d : ℤ) (spot : ℚ) (option_type : Side) : Option OptionContract :=
  match candidate_pool catalog otm_min otm_max d spot option_type with
  | [] => none
  | x :: xs => some (pick_min x xs).1

theorem key_le_refl (a : OptionContract × ℚ) : key_le a a :=
  Or.inr ⟨rfl, le_refl _⟩

theorem key_le_trans {a b c : OptionContract × ℚ}
    (h1 : key_le a b) (h2 : key_le b c) : key_le a c := by
  rcases h1 with h1 | ⟨h1, h1'⟩ <;> rcases h2 with h2 | ⟨h2, h2'⟩
  · exact Or.inl (lt_trans h1 h2)
  · exact Or.inl (h2 ▸ h1)
  · exact Or.inl (h1 ▸ h2)
  · exact Or.inr ⟨h1.trans h2, le_trans h1' h2'⟩

theorem key_lt_le {a b : OptionContract × ℚ} (h : key_lt a b) : key_le a b := by
  rcases h with h | ⟨h, h'⟩
  · exact Or.inl h
  · exact Or.inr ⟨h, le_of_lt h'⟩

theorem key_not_lt_le {a b : OptionContract × ℚ} (h : ¬ key_lt a b) : key_le b a := by
  rw [key_lt, not_or, not_and] at h
  rcases lt_trichotomy b.1.maturity_date a.1.maturity_date with hm | hm | hm
  · exact Or.inl hm
  · refine Or.inr ⟨hm, ?_⟩
    by_contra hq
    exact h.2 hm.symm (lt_of_not_le hq)
  · exact absurd hm (h.1 ∘ id)

theorem pick_min_mem (best : OptionContract × ℚ) (l : List (OptionContract × ℚ)) :
    pick_min best l = best ∨ pick_min best l ∈ l := by
  induction l generalizing best with
  | nil => exact Or.inl rfl
  | cons c rest ih =>
    rw [pick_min]
    by_cases h : key_lt c best
    · rw [if_pos h]
      rcases ih c with h' | h'
      · exact Or.inr (by rw [h']; exact List.mem_cons_self _ _)
      · exact Or.inr (List.mem_cons_of_mem _ h')
    · rw [if_neg h]
      rcases ih best with h' | h'
      · exact Or.inl h'
      · exact Or.inr (List.mem_cons_of_mem _ h')

theorem pick_min_le (best : OptionContract × ℚ) (l : List (OptionContract × ℚ)) :
    key_le (pick_min best l) best ∧ ∀ y ∈ l, key_le (pick_min best l) y := by
  induction l generalizing best with
  | nil => exact ⟨key_le_refl _, fun y hy => absurd hy (List.not_mem_nil _)⟩
  | cons c rest ih =>
    rw [pick_min]
    by_cases h : key_lt c best
    · rw [if_pos h]
      obtain ⟨ih1, ih2⟩ := ih c
      refine ⟨key_le_trans ih1 (key_lt_le h), fun y hy => ?_⟩
      rcases List.mem_cons.mp hy with hy | hy
      · exact hy ▸ ih1
      · exact ih2 y hy
    · rw [if_neg h]
      obtain ⟨ih1, ih2⟩ := ih best
      refine ⟨ih1, fun y hy => ?_⟩
      rcases List.mem_cons.mp hy with hy | hy
      · exact hy ▸ key_le_trans ih1 (key_not_lt_le h)
      · exact ih2 y hy

/-- The qualification predicate of claim C2: the contract passes the
liveness mask and its moneyness lies inside the band. -/
def qualifies (otm_min otm_max : ℚ) (d : ℤ) (spot : ℚ) (option_type : Side)
    (c : OptionContract) : Prop :=
  c.call_put = option_type ∧ c.list_date ≤ d ∧
    (c.delist_date = none ∨ ∃ dd, c.delist_date = some dd ∧ d ≤ dd) ∧
    d < c.maturity_date ∧
    otm_min ≤ otm_of spot option_type c ∧ otm_of spot option_type c ≤ otm_max

theorem live_filter_iff (d : ℤ) (option_type : Side) (c : OptionContract) :
    live_filter d option_type c = true ↔
      c.call_put = option_type ∧ c.list_date ≤ d ∧
        (c.delist_date = none ∨ ∃ dd, c.delist_date = some dd ∧ d ≤ dd) ∧
        d < c.maturity_date := by
  rw [live_filter]
  cases hdd : c.delist_date with
  | none =>
    simp [hdd, and_assoc]
  | some dd =>
    simp only [hdd, Bool.and_eq_true, decide_eq_true_eq, and_assoc]
    constructor
    · rintro ⟨h1, h2, h3, h4⟩
      exact ⟨h1, h2, Or.inr ⟨dd, rfl, h3⟩, h4⟩
    · rintro ⟨h1, h2, h3, h4⟩
      rcases h3 with h3 | ⟨dd', hdd', h3⟩
      · exact absurd h3 (by simp)
      · exact ⟨h1, h2, (Option.some.inj hdd') ▸ h3, h4⟩

theorem mem_pool2 (catalog : List OptionContract) (otm_min otm_max : ℚ)
    (d : ℤ) (spot : ℚ) (option_type : Side) (p : OptionContract × ℚ)
    (hp : p ∈ candidate_pool catalog otm_min otm_max d spot option_type) :
    p.1 ∈ catalog ∧ p.2 = otm_of spot option_type p.1 ∧
      qualifies otm_min otm_max d spot option_type p.1 := by
  rw [candidate_pool, List.mem_filter] at hp
  obtain ⟨hp1, hp2⟩ := hp
  rw [List.mem_map] at hp1
  obtain ⟨c, hc, hceq⟩ := hp1
  rw [List.mem_filter] at hc
  subst hceq
  simp only [band_filter, Bool.and_eq_true, decide_eq_true_eq] at hp2
  have hlive := (live_filter_iff d option_type c).mp hc.2
  exact ⟨hc.1, rfl, hlive.1, hlive.2.1, hlive.2.2.1, hlive.2.2.2, hp2.1, hp2.2⟩

theorem mem_pool2_of_qualifies (catalog : List OptionContract) (otm_min otm_max : ℚ)
    (d : ℤ) (spot : ℚ) (option_type : Side) (c : OptionContract)
    (hc : c ∈ catalog) (hq : qualifies otm_min otm_max d spot option_type c) :
    (c, otm_of spot option_type c) ∈ candidate_pool catalog otm_min otm_max d spot option_type := by
  rw [candidate_pool, List.mem_filter, List.mem_map]
  refine ⟨⟨c, ?_, rfl⟩, ?_⟩
  · rw [List.mem_filter]
    exact ⟨hc, (live_filter_iff d option_type c).mpr
      ⟨hq.1, hq.2.1, hq.2.2.1, hq.2.2.2.1⟩⟩
  · simp only [band_filter, Bool.and_eq_true, decide_eq_true_eq]
    exact ⟨hq.2.2.2.2.1, hq.2.2.2.2.2⟩

/-- Claim C2: whenever `pick_option` returns a contract, that contract
belongs to the catalog, passes every liveness filter (side match, listing
date ≤ trade date, delisting absent or ≥ trade date, maturity strictly
after the trade date), its `otm` lies inside `[otm_min, otm_max]`, and it
is minimal among all qualifying contracts in the lexicographic
`(maturity_date, otm)` order — earliest maturity first, ties broken by
smallest otm; and `pick_option` returns `none` exactly when no catalog
contract qualifies. -/
theorem pick_option_spec (catalog : List OptionContract) (otm_min otm_max : ℚ)
    (d : ℤ) (spot : ℚ) (option_type : Side) :
    (∀ c, pick_option catalog otm_min otm_max d spot option_type = some c →
      c ∈ catalog ∧ qualifies otm_min otm_max d spot option_type c ∧
        ∀ c' ∈ catalog, qualifies otm_min otm_max d spot option_type c' →
          (c.maturity_date < c'.maturity_date ∨
            (c.maturity_date = c'.maturity_date ∧
              otm_of spot option_type c ≤ otm_of spot option_type c'))) ∧
    (pick_option catalog otm_min otm_max d spot option_type = none ↔
      ∀ c ∈ catalog, ¬ qualifies otm_min otm_max d spot option_type c) := by
  constructor
  · intro c hc
    rw [pick_option] at hc
    cases hpool : candidate_pool catalog otm_min otm_max d spot option_type with
    | nil =>
      rw [hpool] at hc
      exact absurd hc (by simp)
    | cons x xs =>
      rw [hpool] at hc
      have hceq := Option.some.inj hc
      have hmemmin : pick_min x xs ∈ x :: xs := by
        rcases pick_min_mem x xs with h | h
        · rw [h]; exact List.mem_cons_self _ _
        · exact List.mem_cons_of_mem _ h
      have hmem2 := mem_pool2 catalog otm_min otm_max d spot option_type
        (pick_min x xs) (hpool ▸ hmemmin)
      refine ⟨hceq ▸ hmem2.1, hceq ▸ hmem2.2.2, ?_⟩
      intro c' hc' hq'
      have hc'pool : (c', otm_of spot option_type c') ∈ x :: xs :=
        hpool ▸ mem_pool2_of_qualifies catalog otm_min otm_max d spot option_type c' hc' hq'
      have hle : key_le (pick_min x xs) (c', otm_of spot option_type c') := by
        rcases List.mem_cons.mp hc'pool with h | h
        · exact h ▸ (pick_min_le x xs).1
        · exact (pick_min_le x xs).2 _ h
      rcases hle with h | ⟨h, h'⟩
      · exact Or.inl (hceq ▸ h)
      · refine Or.inr ⟨hceq ▸ h, ?_⟩
        have := hmem2.2.1
        rw [← hceq]
        rw [← this]
        exact h'
  · rw [pick_option]
    cases hpool : candidate_pool catalog otm_min otm_max d spot option_type with
    | nil =>
      simp only [true_iff]
      intro c hc hq
      have := hpool ▸ mem_pool2_of_qualifies catalog otm_min otm_max d spot option_type c hc hq
      exact absurd this (List.not_mem_nil _)
    | cons x xs =>
      simp only [reduceCtorEq, false_iff, not_forall]
      have hx : x ∈ x :: xs := List.mem_cons_self _ _
      have := mem_pool2 catalog otm_min otm_max d spot option_type x (hpool ▸ hx)
      exact ⟨x.1, this.1, fun hn => hn this.2.2⟩

/-- A concrete catalog row used by the concrete-input theorems: a put on
strike 1 with multiplier 3, listed on day 0, maturing on day 15. -/
def cA : OptionContract :=
  { ts_code := 1, call_put := Side.P, exercise_price := 1, per_unit := 3,
    list_date := 0, delist_date := none, maturity_date := 15 }

/-- Witness for the claim C2 theorem: on the one-row catalog `[cA]` with
spot 2, trade day 5 and band `[0, 1]`, `pick_option` returns `cA`, which
therefore qualifies. -/
theorem pick_option_spec_witness :
    cA ∈ [cA] ∧ qualifies 0 1 5 2 Side.P cA := by
  have hpick : pick_option [cA] 0 1 5 2 Side.P = some cA := by
    norm_num [pick_option, candidate_pool, band_filter, live_filter, otm_of, pick_min, cA]
  have h := (pick_option_spec [cA] 0 1 5 2 Side.P).1 cA hpick
  exact ⟨h.1, h.2.1⟩

/-! ## The monthly simulation loop of `run_wheel_backtest` (lines 195-270)

The external data feeds are function-valued inputs collected in
`BacktestEnv`: the trading calendar (`first_day`, `last_day`, `day_set`
from `trade_cal`), the close series `price_map`, the per-contract quote
feed `opt_daily`, the implied-volatility solver used when the quote
carries no volatility (in the source, `estimate_implied_vol`; its result
is only stored in the record), and the cleaned option catalog with the
moneyness band. -/

/-- The data environment of one backtest run. -/
structure BacktestEnv where
  first_day : ℤ
  last_day : ℤ
  day_set : ℤ → Bool
  price_map : ℤ → Option ℚ
  opt_daily : ℕ → ℤ → Option (ℚ × Option ℚ)
  solver : ℚ → ℚ → ℚ → ℚ → Side → Option ℚ
  catalog : List OptionContract
  otm_min : ℚ
  otm_max : ℚ

/-- The mutable strategy state (`wheel_backtest.py` line 195). -/
structure WheelState where
  cash : ℚ
  shares : ℚ
  max_margin : ℚ
deriving DecidableEq, Repr

/-- One row of the `trades` ledger (`wheel_backtest.py` lines 253-270);
the `month` tag, a string slice of the entry date, is omitted. -/
structure TradeRecord where
  side : Side
  option_code : ℕ
  entry_date : ℤ
  expiry : ℤ
  strike : ℚ
  spot : ℚ
  premium : ℚ
  expiry_price : ℚ
  assigned : Bool
  cash_balance : ℚ
  holding_value : ℚ
  port_value : ℚ
  implied_vol : Option ℚ
deriving DecidableEq, Repr

/-- One point of the equity curve (`wheel_backtest.py` lines 13-18). -/
structure EquityPoint where
  date : ℤ
  cash : ℚ
  holding_value : ℚ
  port_value : ℚ
deriving DecidableEq, Repr

/-- The equity point appended together with a trade record: both are
built from the same locals at lines 242-251. -/
def equity_point_of (tr : TradeRecord) : EquityPoint :=
  { date := tr.entry_date, cash := tr.cash_balance,
    holding_value := tr.holding_value, port_value := tr.port_value }

/-- Model of `contract_unit` (`wheel_backtest.py` line 115): the
`per_unit` field of the first row of the cleaned catalog (the catalog is
nonempty when the run starts; the empty case yields a dummy 0). -/
def contract_unit (catalog : List OptionContract) : ℚ :=
  match catalog with
  | [] => 0
  | c :: _ => c.per_unit

/-- Model of `option_close` (`wheel_backtest.py` lines 152-172) without
its memoization cache, which is semantically transparent for the pure
quote feed: look up the quote at the requested day, falling back to the
next trading day when the first lookup is empty. -/
def option_close (env : BacktestEnv) (code : ℕ) (d : ℤ) : Option (ℚ × Option ℚ) :=
  match env.opt_daily code d with
  | some r => some r
  | none =>
    match nearest_trade_day env.first_day env.last_day env.day_set d true with
    | some nd => env.opt_daily code nd
    | none => none

/-- Model of the assignment step (`wheel_backtest.py` lines 230-240):
returns the updated state and the `assigned` flag. -/
def assign_step (option_type : Side) (strike cu expiry_price : ℚ)
    (st : WheelState) : WheelState × Bool :=
  if option_type = Side.P ∧ expiry_price < strike then
    ({ st with cash := st.cash - strike * cu, shares := st.shares + cu }, true)
  else if option_type = Side.C ∧ strike < expiry_price then
    ({ st with cash := st.cash + strike * cu, shares := max 0 (st.shares - cu) }, true)
  else (st, false)

/-- The side sold at an entry date (`wheel_backtest.py` line 203): a put
when no shares are held, a covered call otherwise. -/
def entry_side (st : WheelState) : Side :=
  if st.shares = 0 then Side.P else Side.C

/-- The state after crediting the premium and, for a put, tracking the
margin requirement (`wheel_backtest.py` lines 221-224), before the
assignment step. -/
def pre_assign_state (option_type : Side) (strike premium cu : ℚ)
    (st : WheelState) : WheelState :=
  let st1 : WheelState := { st with cash := st.cash + premium }
  if option_type = Side.P then
    { st1 with max_margin := max st1.max_margin (strike * cu) }
  else st1

/-- The time to expiry handed to the solver (`wheel_backtest.py` lines
215-219): calendar days between entry and maturity, floored at zero,
divided by 365. -/
def time_years_of (entry maturity : ℤ) : ℚ :=
  let days_to_expiry : ℤ := max (maturity - entry) 0
  if 0 < days_to_expiry then (days_to_expiry : ℚ) / 365 else 0

/-- The implied volatility stored in the record (`wheel_backtest.py`
lines 214-220): the quote's own value when present, otherwise the
solver's estimate. -/
def recorded_vol (env : BacktestEnv) (opt_px spot strike : ℚ)
    (entry maturity : ℤ) (option_type : Side) (quote_vol : Option ℚ) : Option ℚ :=
  match quote_vol with
  | some v => some v
  | none => env.solver opt_px spot strike (time_years_of entry maturity) option_type

/-- Model of one iteration of the monthly loop (`wheel_backtest.py`
lines 199-270), for entry date `entry`: the returned option is the trade
record appended for the month (`none` when the month is skipped).  Note
that when the settlement price is unavailable the premium already
credited stands (the `continue` at line 228 happens after line 222). -/
def month_step (env : BacktestEnv) (cu : ℚ) (st : WheelState) (entry : ℤ) :
    WheelState × Option TradeRecord :=
  match env.price_map entry with
  | none => (st, none)
  | some spot =>
    match pick_option env.catalog env.otm_min env.otm_max entry spot (entry_side st) with
    | none => (st, none)
    | some chosen =>
      match option_close env chosen.ts_code entry with
      | none => (st, none)
      | some (opt_px, quote_vol) =>
        match price_on_or_before env.first_day env.price_map chosen.maturity_date with
        | none =>
          (pre_assign_state (entry_side st) chosen.exercise_price (opt_px * cu) cu st, none)
        | some expiry_price =>
          ((assign_step (entry_side st) chosen.exercise_price cu expiry_price
              (pre_assign_state (entry_side st) chosen.exercise_price (opt_px * cu) cu st)).1,
            some { side := entry_side st, option_code := chosen.ts_code,
                   entry_date := entry, expiry := chosen.maturity_date,
                   strike := chosen.exercise_price, spot := spot,
                   premium := opt_px * cu, expiry_price := expiry_price,
                   assigned := (assign_step (entry_side st) chosen.exercise_price cu expiry_price
                     (pre_assign_state (entry_side st) chosen.exercise_price (opt_px * cu) cu st)).2,
                   cash_balance := (assign_step (entry_side st) chosen.exercise_price cu expiry_price
                     (pre_assign_state (entry_side st) chosen.exercise_price (opt_px * cu) cu st)).1.cash,
                   holding_value := (assign_step (entry_side st) chosen.exercise_price cu expiry_price
                     (pre_assign_state (entry_side st) chosen.exercise_price (opt_px * cu) cu st)).1.shares * spot,
                   port_value := (assign_step (entry_side st) chosen.exercise_price cu expiry_price
                     (pre_assign_state (entry_side st) chosen.exercise_price (opt_px * cu) cu st)).1.cash +
                     (assign_step (entry_side st) chosen.exercise_price cu expiry_price
                       (pre_assign_state (entry_side st) chosen.exercise_price (opt_px * cu) cu st)).1.shares * spot,
                   implied_vol := recorded_vol env opt_px spot chosen.exercise_price
                     entry chosen.maturity_date (entry_side st) quote_vol })

/-- The monthly loop from an intermediate state: fold `month_step` over
the remaining entry dates, appending each emitted trade record. -/
def runFrom (env : BacktestEnv) (cu : ℚ) :
    WheelState × List TradeRecord → List ℤ → WheelState × List TradeRecord
  | acc, [] => acc
  | acc, m :: rest =>
    let s := month_step env cu acc.1 m
    runFrom env cu (s.1, acc.2 ++ s.2.toList) rest

/-- Model of the whole simulation loop of `run_wheel_backtest` (lines
195-270): start from the configured capital, zero shares and zero
margin, with the multiplier taken once from the first catalog row. -/
def run_wheel (env : BacktestEnv) (initial_capital : ℚ) (months : List ℤ) :
    WheelState × List TradeRecord :=
  runFrom env (contract_unit env.catalog)
    ({ cash := initial_capital, shares := 0, max_margin := 0 }, []) months

/-- The equity curve of the run: one `EquityPoint` per executed cycle,
built from the same values as the trade record (lines 242-251). -/
def equity_curve (env : BacktestEnv) (initial_capital : ℚ) (months : List ℤ) :
    List EquityPoint :=
  (run_wheel env initial_capital months).2.map equity_point_of

theorem month_step_some_inv (env : BacktestEnv) (cu : ℚ) (st : WheelState)
    (entry : ℤ) (st' : WheelState) (tr : TradeRecord)
    (h : month_step env cu st entry = (st', some tr)) :
    ∃ spot chosen opt_px quote_vol expiry_price,
      env.price_map entry = some spot ∧
      pick_option env.catalog env.otm_min env.otm_max entry spot (entry_side st) = some chosen ∧
      option_close env chosen.ts_code entry = some (opt_px, quote_vol) ∧
      price_on_or_before env.first_day env.price_map chosen.maturity_date = some expiry_price ∧
      st' = (assign_step (entry_side st) chosen.exercise_price cu expiry_price
        (pre_assign_state (entry_side st) chosen.exercise_price (opt_px * cu) cu st)).1 ∧
      tr.assigned = (assign_step (entry_side st) chosen.exercise_price cu expiry_price
        (pre_assign_state (entry_side st) chosen.exercise_price (opt_px * cu) cu st)).2 ∧
      tr.side = entry_side st ∧ tr.option_code = chosen.ts_code ∧
      tr.entry_date = entry ∧ tr.expiry = chosen.maturity_date ∧
      tr.strike = chosen.exercise_price ∧ tr.spot = spot ∧
      tr.premium = opt_px * cu ∧ tr.expiry_price = expiry_price ∧
      tr.cash_balance = st'.cash ∧ tr.holding_value = st'.shares * spot ∧
      tr.port_value = st'.cash + st'.shares * spot := by
  rw [month_step] at h
  split at h
  · exact absurd h (by simp)
  rename_i spot hspot
  split at h
  · exact absurd h (by simp)
  rename_i chosen hpick
  split at h
  · exact absurd h (by simp)
  rename_i opt_px quote_vol hoc
  split at h
  · exact absurd h (by simp)
  rename_i expiry_price hexp
  rw [Prod.mk.injEq] at h
  obtain ⟨hst', htr⟩ := h
  have htr' := Option.some.inj htr
  subst hst'
  subst htr'
  exact ⟨spot, chosen, opt_px, quote_vol, expiry_price, hspot, hpick, hoc, hexp,
    rfl, rfl, rfl, rfl, rfl, rfl, rfl, rfl, rfl, rfl, rfl, rfl, rfl⟩

/-- Claim C1: in the assignment step a put is assigned iff the settlement
price is strictly below the strike and a call is assigned iff it is
strictly above; on put assignment cash falls by exactly `strike × cu` and
shares rise by exactly `cu`; on call assignment cash rises by exactly
`strike × cu` and shares fall by `cu` floored at zero; and whenever
neither strict inequality holds the step leaves the state unchanged and
reports no assignment.  `month_step` performs exactly this step on every
executed cycle. -/
theorem assign_step_spec (option_type : Side) (strike cu expiry_price : ℚ)
    (st : WheelState) :
    ((assign_step option_type strike cu expiry_price st).2 = true ↔
      (option_type = Side.P ∧ expiry_price < strike) ∨
      (option_type = Side.C ∧ strike < expiry_price)) ∧
    (option_type = Side.P → expiry_price < strike →
      (assign_step option_type strike cu expiry_price st).1.cash = st.cash - strike * cu ∧
      (assign_step option_type strike cu expiry_price st).1.shares = st.shares + cu) ∧
    (option_type = Side.C → strike < expiry_price →
      (assign_step option_type strike cu expiry_price st).1.cash = st.cash + strike * cu ∧
      (assign_step option_type strike cu expiry_price st).1.shares = max 0 (st.shares - cu)) ∧
    (¬ expiry_price < strike → ¬ strike < expiry_price →
      (assign_step option_type strike cu expiry_price st).1 = st ∧
      (assign_step option_type strike cu expiry_price st).2 = false) ∧
    (∀ env (cu₀ : ℚ) (st₀ : WheelState) entry st' tr,
      month_step env cu₀ st₀ entry = (st', some tr) →
      ∃ strike₀ px₀ pre,
        st' = (assign_step (entry_side st₀) strike₀ cu₀ px₀ pre).1 ∧
        tr.assigned = (assign_step (entry_side st₀) strike₀ cu₀ px₀ pre).2 ∧
        tr.strike = strike₀ ∧ tr.expiry_price = px₀) := by
  refine ⟨?_, ?_, ?_, ?_, ?_⟩
  · rw [assign_step]
    by_cases h1 : option_type = Side.P ∧ expiry_price < strike
    · rw [if_pos h1]
      simp [h1]
    · rw [if_neg h1]
      by_cases h2 : option_type = Side.C ∧ strike < expiry_price
      · rw [if_pos h2]
        simp [h1, h2]
      · rw [if_neg h2]
        simp [h1, h2]
  · intro hP hlt
    rw [assign_step, if_pos ⟨hP, hlt⟩]
    exact ⟨rfl, rfl⟩
  · intro hC hgt
    have hne : ¬ (option_type = Side.P ∧ expiry_price < strike) := by
      rintro ⟨h, _⟩
      rw [hC] at h
      exact absurd h (by simp)
    rw [assign_step, if_neg hne, if_pos ⟨hC, hgt⟩]
    exact ⟨rfl, rfl⟩
  · intro h1 h2
    rw [assign_step, if_neg (fun h => h1 h.2), if_neg (fun h => h2 h.2)]
    exact ⟨rfl, rfl⟩
  · intro env cu₀ st₀ entry st' tr h
    obtain ⟨spot, chosen, opt_px, quote_vol, expiry_price₀, hspot, hpick, hoc, hexp, hst',
      hassgn, hside, hcode, hent, hexpy, hstrk, hsp, hprem, hexpp, hcash, hhold, hportv⟩ :=
      month_step_some_inv env cu₀ st₀ entry st' tr h
    exact ⟨chosen.exercise_price, expiry_price₀, _, hst', hassgn, hstrk, hexpp⟩

/-- Witness for the claim C1 theorem: a put with strike 2, multiplier 3,
settlement price 1 on the state `(cash 10, shares 0, margin 0)` is
assigned, cash falls to `10 - 2 * 3` and shares rise to `0 + 3`. -/
theorem assign_step_spec_witness :
    (1 : ℚ) < 2 ∧
    (assign_step Side.P 2 3 1 ⟨10, 0, 0⟩).2 = true ∧
    (assign_step Side.P 2 3 1 ⟨10, 0, 0⟩).1.cash = 10 - 2 * 3 ∧
    (assign_step Side.P 2 3 1 ⟨10, 0, 0⟩).1.shares = 0 + 3 := by
  have h1 : (1 : ℚ) < 2 := by norm_num
  have h := assign_step_spec Side.P 2 3 1 ⟨10, 0, 0⟩
  exact ⟨h1, h.1.mpr (Or.inl ⟨rfl, h1⟩), (h.2.1 rfl h1).1, (h.2.1 rfl h1).2⟩

theorem month_step_state_cases (env : BacktestEnv) (cu : ℚ) (st : WheelState) (entry : ℤ) :
    (month_step env cu st entry).1 = st ∨
    (∃ strike premium, (month_step env cu st entry).1 =
      pre_assign_state (entry_side st) strike premium cu st) ∨
    (∃ strike premium px, (month_step env cu st entry).1 =
      (assign_step (entry_side st) strike cu px
        (pre_assign_state (entry_side st) strike premium cu st)).1) := by
  rw [month_step]
  split
  · exact Or.inl rfl
  split
  · exact Or.inl rfl
  split
  · exact Or.inl rfl
  split
  · exact Or.inr (Or.inl ⟨_, _, rfl⟩)
  · exact Or.inr (Or.inr ⟨_, _, _, rfl⟩)

theorem pre_assign_state_fields (option_type : Side) (strike premium cu : ℚ)
    (st : WheelState) :
    (pre_assign_state option_type strike premium cu st).cash = st.cash + premium ∧
    (pre_assign_state option_type strike premium cu st).shares = st.shares ∧
    st.max_margin ≤ (pre_assign_state option_type strike premium cu st).max_margin ∧
    (pre_assign_state option_type strike premium cu st).max_margin =
      (if option_type = Side.P then max st.max_margin (strike * cu) else st.max_margin) := by
  rw [pre_assign_state]
  by_cases h : option_type = Side.P
  · rw [if_pos h, if_pos h]
    exact ⟨rfl, rfl, le_max_left _ _, rfl⟩
  · rw [if_neg h, if_neg h]
    exact ⟨rfl, rfl, le_refl _, rfl⟩

theorem assign_step_margin (option_type : Side) (strike cu px : ℚ) (st : WheelState) :
    (assign_step option_type strike cu px st).1.max_margin = st.max_margin := by
  rw [assign_step]
  split_ifs <;> rfl

theorem assign_step_shares_cases (option_type : Side) (strike cu px : ℚ) (st : WheelState) :
    (assign_step option_type strike cu px st).1.shares = st.shares ∨
    (option_type = Side.P ∧
      (assign_step option_type strike cu px st).1.shares = st.shares + cu) ∨
    (option_type = Side.C ∧
      (assign_step option_type strike cu px st).1.shares = max 0 (st.shares - cu)) := by
  rw [assign_step]
  split_ifs with h1 h2
  · exact Or.inr (Or.inl ⟨h1.1, rfl⟩)
  · exact Or.inr (Or.inr ⟨h2.1, rfl⟩)
  · exact Or.inl rfl

theorem entry_side_P_iff (st : WheelState) : entry_side st = Side.P ↔ st.shares = 0 := by
  rw [entry_side]
  by_cases h : st.shares = 0
  · simp [h]
  · simp [h]

theorem month_step_margin_mono (env : BacktestEnv) (cu : ℚ) (st : WheelState) (entry : ℤ) :
    st.max_margin ≤ (month_step env cu st entry).1.max_margin := by
  rcases month_step_state_cases env cu st entry with h | ⟨k, p, h⟩ | ⟨k, p, px, h⟩
  · rw [h]
  · rw [h]
    exact (pre_assign_state_fields _ k p cu st).2.2.1
  · rw [h, assign_step_margin]
    exact (pre_assign_state_fields _ k p cu st).2.2.1

theorem month_step_shares_inv (env : BacktestEnv) (cu : ℚ) (st : WheelState) (entry : ℤ)
    (hinv : st.shares = 0 ∨ st.shares = cu) :
    (month_step env cu st entry).1.shares = 0 ∨
      (month_step env cu st entry).1.shares = cu := by
  rcases month_step_state_cases env cu st entry with h | ⟨k, p, h⟩ | ⟨k, p, px, h⟩
  · rw [h]; exact hinv
  · rw [h, (pre_assign_state_fields _ k p cu st).2.1]
    exact hinv
  · rw [h]
    have hpre := (pre_assign_state_fields (entry_side st) k p cu st).2.1
    rcases assign_step_shares_cases (entry_side st) k cu px
        (pre_assign_state (entry_side st) k p cu st) with hs | ⟨hP, hs⟩ | ⟨hC, hs⟩
    · rw [hs, hpre]; exact hinv
    · have hz : st.shares = 0 := (entry_side_P_iff st).mp hP
      rw [hs, hpre, hz, zero_add]
      exact Or.inr rfl
    · have hz : ¬ st.shares = 0 := by
        intro hz
        rw [entry_side, if_pos hz] at hC
        exact absurd hC (by simp)
      have hcu : st.shares = cu := hinv.resolve_left hz
      rw [hs, hpre, hcu, sub_self]
      left
      simp

theorem runFrom_margin_mono (env : BacktestEnv) (cu : ℚ) (months : List ℤ) :
    ∀ st trs, st.max_margin ≤ (runFrom env cu (st, trs) months).1.max_margin := by
  induction months with
  | nil => intro st trs; exact le_refl _
  | cons m rest ih =>
    intro st trs
    rw [runFrom]
    exact le_trans (month_step_margin_mono env cu st m) (ih _ _)

theorem runFrom_shares_inv (env : BacktestEnv) (cu : ℚ) (months : List ℤ) :
    ∀ st trs, (st.shares = 0 ∨ st.shares = cu) →
      ((runFrom env cu (st, trs) months).1.shares = 0 ∨
        (runFrom env cu (st, trs) months).1.shares = cu) := by
  induction months with
  | nil => intro st trs hinv; exact hinv
  | cons m rest ih =>
    intro st trs hinv
    rw [runFrom]
    exact ih _ _ (month_step_shares_inv env cu st m hinv)

/-- Claim C10: starting from zero shares, the shares held after every
completed monthly cycle — and hence after the whole run — are exactly 0
or exactly one contract multiplier (in particular never negative and
never two or more lots), the running max margin is non-negative and
non-decreasing along the monthly fold from any state, and the side of
every emitted trade record is PUT exactly when the shares before that
cycle were zero (the `entry_side` choice of `month_step`). -/
theorem wheel_position_invariant (env : BacktestEnv) (initial_capital : ℚ)
    (months : List ℤ) (hcu : 0 < contract_unit env.catalog) :
    ((run_wheel env initial_capital months).1.shares = 0 ∨
      (run_wheel env initial_capital months).1.shares = contract_unit env.catalog) ∧
    0 ≤ (run_wheel env initial_capital months).1.shares ∧
    0 ≤ (run_wheel env initial_capital months).1.max_margin ∧
    (∀ st trs ms, st.max_margin ≤
      (runFrom env (contract_unit env.catalog) (st, trs) ms).1.max_margin) ∧
    (∀ cu' st entry, (st.shares = 0 ∨ st.shares = cu') →
      ((month_step env cu' st entry).1.shares = 0 ∨
        (month_step env cu' st entry).1.shares = cu')) ∧
    (∀ cu' st entry st' tr, month_step env cu' st entry = (st', some tr) →
      (tr.side = Side.P ↔ st.shares = 0)) := by
  have hsh := runFrom_shares_inv env (contract_unit env.catalog) months
    { cash := initial_capital, shares := 0, max_margin := 0 } [] (Or.inl rfl)
  have hmm := runFrom_margin_mono env (contract_unit env.catalog) months
    { cash := initial_capital, shares := 0, max_margin := 0 } []
  refine ⟨hsh, ?_, hmm, fun st trs ms => runFrom_margin_mono env _ ms st trs,
    fun cu' st entry hinv => month_step_shares_inv env cu' st entry hinv, ?_⟩
  · show 0 ≤ (runFrom env (contract_unit env.catalog)
      ({ cash := initial_capital, shares := 0, max_margin := 0 }, []) months).1.shares
    rcases hsh with h | h
    · rw [h]
    · rw [h]
      exact le_of_lt hcu
  · intro cu' st entry st' tr h
    obtain ⟨spot, chosen, opt_px, quote_vol, expiry_price, _, _, _, _, _, _, hside, _⟩ :=
      month_step_some_inv env cu' st entry st' tr h
    rw [hside]
    exact entry_side_P_iff st

/-- Claim C8: at an entry date whose price is known, if the contract
selector returns nothing, or every selected contract has no obtainable
quote (`option_close` is `none`, i.e. no quote on the entry date nor on
the next trading day), then the month is skipped atomically: the state
(cash, shares, running max margin) is returned unchanged and no trade
record is emitted, and the fold over the remaining months proceeds from
exactly the same accumulator, so subsequent months are still attempted. -/
theorem month_skip_spec (env : BacktestEnv) (cu : ℚ) (st : WheelState)
    (trs : List TradeRecord) (entry : ℤ) (spot : ℚ)
    (hspot : env.price_map entry = some spot)
    (hskip : pick_option env.catalog env.otm_min env.otm_max entry spot (entry_side st) = none ∨
      ∀ chosen,
        pick_option env.catalog env.otm_min env.otm_max entry spot (entry_side st) = some chosen →
        option_close env chosen.ts_code entry = none) :
    month_step env cu st entry = (st, none) ∧
    ∀ rest, runFrom env cu (st, trs) (entry :: rest) = runFrom env cu (st, trs) rest := by
  have hstep : month_step env cu st entry = (st, none) := by
    rw [month_step]
    rcases hskip with hnone | hqnone
    · simp [hspot, hnone]
    · cases hpick : pick_option env.catalog env.otm_min env.otm_max entry spot (entry_side st) with
      | none => simp [hspot, hpick]
      | some chosen => simp [hspot, hpick, hqnone chosen hpick]
  refine ⟨hstep, fun rest => ?_⟩
  simp [runFrom, hstep]

/-- A concrete data environment for the concrete-input theorems: the
catalog holds only `cA`, the underlying closes at 2 on day 5 and at 1/2
on day 15, and the only option quote is close 1 (no volatility) for
contract 1 on day 5. -/
def testEnv : BacktestEnv where
  first_day := 0
  last_day := 30
  day_set := fun d => decide (0 ≤ d ∧ d ≤ 30)
  price_map := fun d => if d = 5 then some 2 else if d = 15 then some (1 / 2) else none
  opt_daily := fun code d => if code = 1 ∧ d = 5 then some (1, none) else none
  solver := fun _ _ _ _ _ => none
  catalog := [cA]
  otm_min := 0
  otm_max := 1

/-- The trade record emitted by the single executed cycle of `testEnv`
with entry day 5: the put is assigned at settlement 1/2 < strike 1, and
the holding is valued at the entry spot 2. -/
def testTrade : TradeRecord where
  side := Side.P
  option_code := 1
  entry_date := 5
  expiry := 15
  strike := 1
  spot := 2
  premium := 3
  expiry_price := 1 / 2
  assigned := true
  cash_balance := 0
  holding_value := 6
  port_value := 6
  implied_vol := none

theorem month_step_testEnv :
    month_step testEnv 3 { cash := 0, shares := 0, max_margin := 0 } 5 =
      ({ cash := 0, shares := 3, max_margin := 3 }, some testTrade) := by
  have hpick : pick_option testEnv.catalog testEnv.otm_min testEnv.otm_max 5 2
      (entry_side { cash := 0, shares := 0, max_margin := 0 }) = some cA := by
    norm_num [pick_option, candidate_pool, band_filter, live_filter, otm_of, pick_min,
      testEnv, cA, entry_side]
  have hoc : option_close testEnv cA.ts_code 5 = some (1, none) := by
    rw [option_close]
    norm_num [testEnv, cA]
  have hexp : price_on_or_before testEnv.first_day testEnv.price_map cA.maturity_date =
      some (1 / 2) := by
    rw [price_on_or_before]
    norm_num [testEnv, cA]
  rw [month_step]
  have hspot : testEnv.price_map 5 = some 2 := by norm_num [testEnv]
  rw [hspot]
  simp only [hpick, hoc, hexp]
  norm_num [assign_step, pre_assign_state, entry_side, recorded_vol, testEnv, cA, testTrade]

theorem run_wheel_testEnv :
    run_wheel testEnv 0 [5] =
      ({ cash := 0, shares := 3, max_margin := 3 }, [testTrade]) := by
  have hcu : contract_unit testEnv.catalog = 3 := by
    norm_num [contract_unit, testEnv, cA]
  rw [run_wheel, hcu, runFrom]
  simp only [month_step_testEnv]
  rw [runFrom]
  simp

/-- Counterexample to claim C4 as stated: in the executed cycle of
`testEnv` the recorded holding value is 6, the settlement price is 1/2
and the shares held after assignment are 3, but `3 * (1/2) ≠ 6`; the
engine valued the holding at the entry spot 2, not at the settlement
price. -/
theorem holding_value_settlement_counterexample :
    (run_wheel testEnv 0 [5]).2.map (fun tr => (tr.holding_value, tr.expiry_price)) =
      [(6, 1 / 2)] ∧
    (run_wheel testEnv 0 [5]).1.shares = 3 ∧
    ¬ (6 : ℚ) = 3 * (1 / 2) := by
  rw [run_wheel_testEnv]
  norm_num [testTrade]

/-- Claim C4 (amended): for every executed monthly cycle of
`run_wheel_backtest`, the holding value recorded in the trade record and
the equity point equals the shares held after assignment times the entry
spot price of that cycle (not the settlement price, which the duplicated
script variant uses), and the portfolio value equals the cash after
assignment plus that holding value. -/
theorem holding_value_entry_spot (env : BacktestEnv) (cu : ℚ) (st : WheelState)
    (entry : ℤ) (st' : WheelState) (tr : TradeRecord)
    (h : month_step env cu st entry = (st', some tr)) :
    tr.holding_value = st'.shares * tr.spot ∧
    tr.port_value = st'.cash + tr.holding_value ∧
    tr.cash_balance = st'.cash ∧
    (equity_point_of tr).holding_value = tr.holding_value ∧
    (equity_point_of tr).port_value = tr.port_value ∧
    ∃ spot, env.price_map entry = some spot ∧ tr.spot = spot := by
  obtain ⟨spot, chosen, opt_px, quote_vol, expiry_price, hspot, hpick, hoc, hexp, hst',
    hassgn, hside, hcode, hent, hexpy, hstrk, hsp, hprem, hexpp, hcash, hhold, hportv⟩ :=
    month_step_some_inv env cu st entry st' tr h
  refine ⟨?_, ?_, hcash, rfl, rfl, spot, hspot, hsp⟩
  · rw [hhold, hsp]
  · rw [hportv, hhold]

/-- Witness for the amended claim C4 theorem: in the executed cycle of
`testEnv` the recorded holding value 6 equals the post-assignment shares
3 times the entry spot 2. -/
theorem holding_value_entry_spot_witness :
    testTrade.holding_value =
      ({ cash := 0, shares := 3, max_margin := 3 } : WheelState).shares * testTrade.spot :=
  (holding_value_entry_spot testEnv 3 { cash := 0, shares := 0, max_margin := 0 } 5
    { cash := 0, shares := 3, max_margin := 3 } testTrade month_step_testEnv).1

/-- Witness for the claim C8 theorem: on `testEnv` at entry day 15 the
selector finds no live contract (the only contract matures that very
day), so the month is skipped with the state unchanged and no record
emitted. -/
theorem month_skip_spec_witness :
    testEnv.price_map 15 = some (1 / 2) ∧
    month_step testEnv 3 { cash := 0, shares := 0, max_margin := 0 } 15 =
      ({ cash := 0, shares := 0, max_margin := 0 }, none) := by
  have hspot : testEnv.price_map 15 = some (1 / 2) := by norm_num [testEnv]
  have hnone : pick_option testEnv.catalog testEnv.otm_min testEnv.otm_max 15 (1 / 2)
      (entry_side { cash := 0, shares := 0, max_margin := 0 }) = none := by
    norm_num [pick_option, candidate_pool, band_filter, live_filter, otm_of,
      testEnv, cA, entry_side]
  exact ⟨hspot, (month_skip_spec testEnv 3 { cash := 0, shares := 0, max_margin := 0 } []
    15 (1 / 2) hspot (Or.inl hnone)).1⟩

/-- Witness for the claim C10 theorem: on `testEnv` the multiplier 3 is
positive and after the single-month run the shares equal exactly one
multiplier. -/
theorem wheel_position_invariant_witness :
    0 < contract_unit testEnv.catalog ∧
    ((run_wheel testEnv 0 [5]).1.shares = 0 ∨
      (run_wheel testEnv 0 [5]).1.shares = contract_unit testEnv.catalog) := by
  have hcu : 0 < contract_unit testEnv.catalog := by
    norm_num [contract_unit, testEnv, cA]
  exact ⟨hcu, (wheel_position_invariant testEnv 0 [5] hcu).1⟩

/-! ## Claim C9: the single multiplier

The engine takes its multiplier once, from the `per_unit` field of the
first catalog row (`contract_unit`), and never reads the selected
contract's own `per_unit`.  This is formalized as an invariance: altering
the `per_unit` of every catalog row except the first changes nothing in
the run. -/

/-- Two catalog rows that agree on every field the engine reads after
selection — everything except `per_unit`. -/
def agrees (c c' : OptionContract) : Prop :=
  c.ts_code = c'.ts_code ∧ c.call_put = c'.call_put ∧
    c.exercise_price = c'.exercise_price ∧ c.list_date = c'.list_date ∧
    c.delist_date = c'.delist_date ∧ c.maturity_date = c'.maturity_date

/-- Replace the `per_unit` field of a catalog row. -/
def set_per_unit (u : ℚ) (c : OptionContract) : OptionContract :=
  { c with per_unit := u }

/-- Rewrite the `per_unit` field of every catalog row but the first. -/
def alter_tail (f : OptionContract → ℚ) : List OptionContract → List OptionContract
  | [] => []
  | c :: rest => c :: rest.map (fun c' => set_per_unit (f c') c')

theorem agrees_refl (c : OptionContract) : agrees c c :=
  ⟨rfl, rfl, rfl, rfl, rfl, rfl⟩

theorem agrees_set_per_unit (u : ℚ) (c : OptionContract) : agrees (set_per_unit u c) c :=
  ⟨rfl, rfl, rfl, rfl, rfl, rfl⟩

theorem alter_tail_forall₂ (f : OptionContract → ℚ) (cs : List OptionContract) :
    List.Forall₂ agrees (alter_tail f cs) cs := by
  cases cs with
  | nil => exact List.Forall₂.nil
  | cons c rest =>
    rw [alter_tail]
    refine List.Forall₂.cons (agrees_refl c) ?_
    induction rest with
    | nil => exact List.Forall₂.nil
    | cons d ds ih => exact List.Forall₂.cons (agrees_set_per_unit _ _) ih

theorem live_filter_congr (d : ℤ) (option_type : Side) {c c' : OptionContract}
    (h : agrees c c') : live_filter d option_type c = live_filter d option_type c' := by
  obtain ⟨h1, h2, h3, h4, h5, h6⟩ := h
  rw [live_filter, live_filter, h2, h4, h5, h6]

theorem otm_congr (spot : ℚ) (option_type : Side) {c c' : OptionContract}
    (h : agrees c c') : otm_of spot option_type c = otm_of spot option_type c' := by
  cases option_type <;> rw [otm_of, otm_of, h.2.2.1]

/-- The pool-row relation induced by `agrees`: agreeing contracts with
equal `otm` columns. -/
def pair_agrees (p q : OptionContract × ℚ) : Prop :=
  agrees p.1 q.1 ∧ p.2 = q.2

theorem candidate_pool_rel (otm_min otm_max : ℚ) (d : ℤ) (spot : ℚ) (option_type : Side)
    {cs cs' : List OptionContract} (h : List.Forall₂ agrees cs cs') :
    List.Forall₂ pair_agrees
      (candidate_pool cs otm_min otm_max d spot option_type)
      (candidate_pool cs' otm_min otm_max d spot option_type) := by
  induction h with
  | nil => exact List.Forall₂.nil
  | cons hcc htail ih =>
    rename_i c c' rest rest'
    simp only [candidate_pool, List.filter_cons] at ih ⊢
    rw [live_filter_congr d option_type hcc]
    by_cases hl : live_filter d option_type c' = true
    · rw [if_pos hl, if_pos hl]
      simp only [List.map_cons, List.filter_cons]
      rw [otm_congr spot option_type hcc]
      have hband : band_filter otm_min otm_max (c, otm_of spot option_type c') =
          band_filter otm_min otm_max (c', otm_of spot option_type c') := rfl
      rw [hband]
      by_cases hb : band_filter otm_min otm_max (c', otm_of spot option_type c') = true
      · rw [if_pos hb, if_pos hb]
        exact List.Forall₂.cons ⟨hcc, rfl⟩ ih
      · rw [if_neg hb, if_neg hb]
        exact ih
    · rw [if_neg hl, if_neg hl]
      exact ih

theorem pick_min_rel {l l' : List (OptionContract × ℚ)}
    (hl : List.Forall₂ pair_agrees l l') :
    ∀ {x x'}, pair_agrees x x' → pair_agrees (pick_min x l) (pick_min x' l') := by
  induction hl with
  | nil => intro x x' hx; exact hx
  | cons hpq htail ih =>
    intro x x' hx
    rename_i p q rest rest'
    rw [pick_min, pick_min]
    have hcond : key_lt p x ↔ key_lt q x' := by
      rw [key_lt, key_lt, hpq.1.2.2.2.2.2, hx.1.2.2.2.2.2, hpq.2, hx.2]
    by_cases hc : key_lt q x'
    · rw [if_pos (hcond.mpr hc), if_pos hc]
      exact ih hpq
    · rw [if_neg (fun hh => hc (hcond.mp hh)), if_neg hc]
      exact ih hx

theorem pick_option_agrees {cs cs' : List OptionContract}
    (h : List.Forall₂ agrees cs cs') (otm_min otm_max : ℚ) (d : ℤ) (spot : ℚ)
    (option_type : Side) :
    (pick_option cs otm_min otm_max d spot option_type = none ∧
      pick_option cs' otm_min otm_max d spot option_type = none) ∨
    (∃ c c', pick_option cs otm_min otm_max d spot option_type = some c ∧
      pick_option cs' otm_min otm_max d spot option_type = some c' ∧ agrees c c') := by
  have hpool := candidate_pool_rel otm_min otm_max d spot option_type h
  rw [pick_option, pick_option]
  generalize h1 : candidate_pool cs otm_min otm_max d spot option_type = l1 at hpool ⊢
  generalize h2 : candidate_pool cs' otm_min otm_max d spot option_type = l2 at hpool ⊢
  cases hpool with
  | nil => exact Or.inl ⟨rfl, rfl⟩
  | cons hxy htail =>
    exact Or.inr ⟨_, _, rfl, rfl, (pick_min_rel htail hxy).1⟩

theorem month_step_agrees (env env' : BacktestEnv)
    (hfd : env'.first_day = env.first_day) (hld : env'.last_day = env.last_day)
    (hds : env'.day_set = env.day_set) (hpm : env'.price_map = env.price_map)
    (hod : env'.opt_daily = env.opt_daily) (hsv : env'.solver = env.solver)
    (hmn : env'.otm_min = env.otm_min) (hmx : env'.otm_max = env.otm_max)
    (hcat : List.Forall₂ agrees env'.catalog env.catalog)
    (cu : ℚ) (st : WheelState) (entry : ℤ) :
    month_step env' cu st entry = month_step env cu st entry := by
  have hoc : ∀ code d, option_close env' code d = option_close env code d := by
    intro code d
    rw [option_close, option_close, hod, hfd, hld, hds]
  have hrv : ∀ a b c e m ty qv,
      recorded_vol env' a b c e m ty qv = recorded_vol env a b c e m ty qv := by
    intro a b c e m ty qv
    rw [recorded_vol.eq_def, recorded_vol.eq_def, hsv]
  rw [month_step, month_step, hpm, hmn, hmx]
  cases hspot : env.price_map entry with
  | none => rfl
  | some spot =>
    rcases pick_option_agrees hcat env.otm_min env.otm_max entry spot (entry_side st) with
      ⟨hn1, hn2⟩ | ⟨c, c', hc1, hc2, hagree⟩
    · simp only [hn1, hn2]
    · simp only [hc1, hc2, hoc, hrv, hfd]
      obtain ⟨e1, e2, e3, e4, e5, e6⟩ := hagree
      rw [e1, e3, e6]

theorem runFrom_agrees (env env' : BacktestEnv)
    (hfd : env'.first_day = env.first_day) (hld : env'.last_day = env.last_day)
    (hds : env'.day_set = env.day_set) (hpm : env'.price_map = env.price_map)
    (hod : env'.opt_daily = env.opt_daily) (hsv : env'.solver = env.solver)
    (hmn : env'.otm_min = env.otm_min) (hmx : env'.otm_max = env.otm_max)
    (hcat : List.Forall₂ agrees env'.catalog env.catalog) (cu : ℚ) :
    ∀ acc months, runFrom env' cu acc months = runFrom env cu acc months := by
  intro acc months
  induction months generalizing acc with
  | nil => rfl
  | cons m rest ih =>
    rw [runFrom, runFrom,
      month_step_agrees env env' hfd hld hds hpm hod hsv hmn hmx hcat cu acc.1 m]
    exact ih _

/-- Claim C9: every executed cycle uses the single multiplier
`contract_unit` — the `per_unit` of the first row of the cleaned catalog
— for the premium credited, the margin tracked and the assignment
deltas, and the selected contract's own `per_unit` is never read:
rewriting `per_unit` on every catalog row but the first (to arbitrary
values, so in particular to values differing from the first row's)
changes neither `contract_unit` nor any output of the run; moreover in
every executed cycle the recorded premium is the quoted close times the
`cu` argument, and the margin update is `max` against `strike * cu`. -/
theorem single_multiplier_spec (env : BacktestEnv) (f : OptionContract → ℚ)
    (initial_capital : ℚ) (months : List ℤ) :
    contract_unit (alter_tail f env.catalog) = contract_unit env.catalog ∧
    run_wheel { env with catalog := alter_tail f env.catalog } initial_capital months =
      run_wheel env initial_capital months ∧
    (∀ option_type strike premium cu st,
      (pre_assign_state option_type strike premium cu st).max_margin =
        (if option_type = Side.P then max st.max_margin (strike * cu)
          else st.max_margin)) ∧
    (∀ cu st entry st' tr, month_step env cu st entry = (st', some tr) →
      ∃ opt_px quote_vol,
        option_close env tr.option_code entry = some (opt_px, quote_vol) ∧
        tr.premium = opt_px * cu) := by
  have h1 : contract_unit (alter_tail f env.catalog) = contract_unit env.catalog := by
    rcases hc : env.catalog with _ | ⟨c, rest⟩ <;> rfl
  refine ⟨h1, ?_, ?_, ?_⟩
  · rw [run_wheel, run_wheel]
    have hcat2 : ({ env with catalog := alter_tail f env.catalog } : BacktestEnv).catalog =
        alter_tail f env.catalog := rfl
    rw [hcat2, h1]
    exact runFrom_agrees env { env with catalog := alter_tail f env.catalog }
      rfl rfl rfl rfl rfl rfl rfl rfl (alter_tail_forall₂ f env.catalog) _ _ months
  · intro option_type strike premium cu st
    exact (pre_assign_state_fields option_type strike premium cu st).2.2.2
  · intro cu st entry st' tr h
    obtain ⟨spot, chosen, opt_px, quote_vol, expiry_price, hspot, hpick, hoc, hexp, hst',
      hassgn, hside, hcode, hent, hexpy, hstrk, hsp, hprem, hexpp, hcash, hhold, hportv⟩ :=
      month_step_some_inv env cu st entry st' tr h
    refine ⟨opt_px, quote_vol, ?_, hprem⟩
    rw [hcode]
    exact hoc

/-- Witness for the claim C9 theorem: on `testEnv`, rewriting every
non-first catalog row's `per_unit` to 99 leaves the run unchanged. -/
theorem single_multiplier_spec_witness :
    run_wheel { testEnv with catalog := alter_tail (fun _ => 99) testEnv.catalog } 0 [5] =
      run_wheel testEnv 0 [5] :=
  (single_multiplier_spec testEnv (fun _ => 99) 0 [5]).2.1

end WheelSpec

